import Mathlib

/-!
Shallow embedding of the XLA `ElementalIrEmitter`
(`tensorflow/compiler/xla/service/elemental_ir_emitter.cc`).

The emitter produces LLVM IR computing one output element of an HLO
instruction.  This file embeds the *runtime semantics* of the emitted
instruction DAGs as executable Lean functions:

* machine integers are bit patterns (`ℕ` with explicit `% 2^w`) or, for the
  signed paths whose LLVM comparisons are all signed, integers `ℤ` with the
  LLVM constants (`GetIntSMin`, `GetMinusOne`) read in their signed
  interpretation;
* 32-bit float bit manipulation (`EmitReducePrecisionFloat`) is embedded
  bit-for-bit on `ℕ` patterns below `2^32`;
* float *values* are modelled exactly: `FpVal` is either NaN or a rational
  number.  Rounding and infinities are outside the model; no theorem below
  evaluates an arithmetic op at a point where rounding or infinities matter;
* fallible emission (`StatusOr`, `Unimplemented`, `InvalidArgument`) is
  `Except EmitError`;
* element generators are functions from a coordinate to `Except EmitError`
  of a value, exactly as `llvm_ir::ElementGenerator` behaves.
-/

/-! ## Integer divide / remainder (`EmitIntegerDivide`, `EmitIntegerRemainder`) -/

/-- Signed minimum value of a `w`-bit integer type: the signed reading of the
`GetIntSMin` constant. -/
def intSMin (w : ℕ) : ℤ := -(2 ^ (w - 1))

/-- All-ones `w`-bit pattern: the unsigned reading of the `GetMinusOne`
constant (`APInt::getAllOnesValue`). -/
def allOnes (w : ℕ) : ℕ := 2 ^ w - 1

/-- Safe divisor substituted for the `udiv` in `EmitIntegerDivide` (unsigned
case): `Select(udiv_is_unsafe, GetOne, rhs)`. -/
def safeRhsUnsignedDiv (rhs : ℕ) : ℕ :=
  if rhs = 0 then 1 else rhs

/-- `EmitIntegerDivide`, unsigned case, on `w`-bit patterns:
`Select(udiv_is_unsafe, GetMinusOne, UDiv(lhs, safe_rhs))`. -/
def emitIntegerDivideUnsigned (w : ℕ) (lhs rhs : ℕ) : ℕ :=
  let safe_div := lhs / safeRhsUnsignedDiv rhs
  if rhs = 0 then allOnes w else safe_div

/-- Safe divisor substituted for the `urem` in `EmitIntegerRemainder`
(unsigned case). -/
def safeRhsUnsignedRem (rhs : ℕ) : ℕ :=
  if rhs = 0 then 1 else rhs

/-- `EmitIntegerRemainder`, unsigned case:
`Select(urem_is_unsafe, lhs, URem(lhs, safe_rhs))`. -/
def emitIntegerRemainderUnsigned (lhs rhs : ℕ) : ℕ :=
  let safe_rem := lhs % safeRhsUnsignedRem rhs
  if rhs = 0 then lhs else safe_rem

/-- `IsIntMinDivisionOverflow`: `lhs == INT_SMIN && rhs == -1`. -/
def isIntMinDivisionOverflow (w : ℕ) (lhs rhs : ℤ) : Prop :=
  lhs = intSMin w ∧ rhs = -1

instance (w : ℕ) (lhs rhs : ℤ) : Decidable (isIntMinDivisionOverflow w lhs rhs) :=
  inferInstanceAs (Decidable (_ ∧ _))

/-- Safe divisor substituted for the `sdiv` in `EmitIntegerDivide` (signed
case): `Select(sdiv_is_unsafe, GetOne, rhs)` with
`sdiv_is_unsafe = has_int_min_overflow || has_zero_divisor`. -/
def safeRhsSignedDiv (w : ℕ) (lhs rhs : ℤ) : ℤ :=
  if isIntMinDivisionOverflow w lhs rhs ∨ rhs = 0 then 1 else rhs

/-- `EmitIntegerDivide`, signed case, in the signed reading (values of a
`w`-bit type lie in `[-2^(w-1), 2^(w-1))`); `sdiv` is truncated division
(`Int.tdiv`):
`Select(has_zero_divisor, GetMinusOne, Select(has_int_min_overflow, GetIntSMin, SDiv(lhs, safe_rhs)))`. -/
def emitIntegerDivideSigned (w : ℕ) (lhs rhs : ℤ) : ℤ :=
  let safe_div := Int.tdiv lhs (safeRhsSignedDiv w lhs rhs)
  if rhs = 0 then -1
  else if isIntMinDivisionOverflow w lhs rhs then intSMin w
  else safe_div

/-- Safe divisor substituted for the `srem` in `EmitIntegerRemainder`
(signed case). -/
def safeRhsSignedRem (w : ℕ) (lhs rhs : ℤ) : ℤ :=
  if isIntMinDivisionOverflow w lhs rhs ∨ rhs = 0 then 1 else rhs

/-- `EmitIntegerRemainder`, signed case; `srem` is the remainder of truncated
division (`Int.tmod`, sign follows the dividend):
`Select(has_zero_divisor, lhs, Select(has_int_min_overflow, GetZero, SRem(lhs, safe_rhs)))`. -/
def emitIntegerRemainderSigned (w : ℕ) (lhs rhs : ℤ) : ℤ :=
  let safe_rem := Int.tmod lhs (safeRhsSignedRem w lhs rhs)
  if rhs = 0 then lhs
  else if isIntMinDivisionOverflow w lhs rhs then 0
  else safe_rem

/-- C1: for every unsigned dividend `x`, `x / 0` is the all-ones type maximum
and `x % 0 = x`; for signed types, `INT_MIN / -1 = INT_MIN` and
`INT_MIN % -1 = 0`. -/
theorem integer_divide_remainder_overflow_policy (w : ℕ) (x : ℕ) :
    emitIntegerDivideUnsigned w x 0 = allOnes w ∧
    emitIntegerRemainderUnsigned x 0 = x ∧
    emitIntegerDivideSigned w (intSMin w) (-1) = intSMin w ∧
    emitIntegerRemainderSigned w (intSMin w) (-1) = 0 := by
  refine ⟨rfl, rfl, ?_, ?_⟩
  · simp [emitIntegerDivideSigned, isIntMinDivisionOverflow, intSMin]
  · simp [emitIntegerRemainderSigned, isIntMinDivisionOverflow, intSMin]

/-- C9: signed division by zero yields `-1` (the all-ones pattern) and signed
remainder by zero yields the dividend; moreover, in all four divide/remainder
paths the divisor actually handed to the hardware division instruction is
never an unsafe one: it is nonzero, and never `-1` together with an `INT_MIN`
dividend. -/
theorem signed_div_by_zero_and_safe_divisor (w : ℕ) (x : ℤ) (lhs rhs : ℤ)
    (urhs : ℕ) :
    emitIntegerDivideSigned w x 0 = -1 ∧
    emitIntegerRemainderSigned w x 0 = x ∧
    safeRhsSignedDiv w lhs rhs ≠ 0 ∧
    ¬(lhs = intSMin w ∧ safeRhsSignedDiv w lhs rhs = -1) ∧
    safeRhsSignedRem w lhs rhs ≠ 0 ∧
    ¬(lhs = intSMin w ∧ safeRhsSignedRem w lhs rhs = -1) ∧
    safeRhsUnsignedDiv urhs ≠ 0 ∧
    safeRhsUnsignedRem urhs ≠ 0 := by
  refine ⟨by simp [emitIntegerDivideSigned], by simp [emitIntegerRemainderSigned], ?_, ?_, ?_, ?_, ?_, ?_⟩
  · unfold safeRhsSignedDiv
    split
    · omega
    · rename_i h
      intro hc
      exact h (Or.inr hc)
  · unfold safeRhsSignedDiv
    rintro ⟨hl, hs⟩
    revert hs
    split
    · omega
    · rename_i h
      intro hc
      exact h (Or.inl ⟨hl, hc⟩)
  · unfold safeRhsSignedRem
    split
    · omega
    · rename_i h
      intro hc
      exact h (Or.inr hc)
  · unfold safeRhsSignedRem
    rintro ⟨hl, hs⟩
    revert hs
    split
    · omega
    · rename_i h
      intro hc
      exact h (Or.inl ⟨hl, hc⟩)
  · unfold safeRhsUnsignedDiv
    split <;> omega
  · unfold safeRhsUnsignedRem
    split <;> omega

/-! ## Float values and comparisons (`EmitFloatBinaryOp`) -/

/-- Exact model of a floating-point scalar: NaN, or an exact rational value.
Rounding and infinities are outside the scope of the claims proved here. -/
inductive FpVal where
  | nan : FpVal
  | num : ℚ → FpVal
deriving DecidableEq

/-- The LLVM float comparison predicates emitted by `EmitFloatBinaryOp`.
Ordered (`o`-prefixed) predicates are false whenever an operand is NaN;
unordered (`u`-prefixed) predicates are true whenever an operand is NaN. -/
inductive FCmpPredicate where
  | oeq | olt | ogt | ole | oge | une
deriving DecidableEq

/-- Whether a predicate is an ordered comparison. -/
def FCmpPredicate.isOrdered : FCmpPredicate → Bool
  | .oeq | .olt | .ogt | .ole | .oge => true
  | .une => false

/-- The numeric relation a predicate tests when both operands are numbers. -/
def FCmpPredicate.rel : FCmpPredicate → ℚ → ℚ → Bool
  | .oeq => fun a b => a = b
  | .olt => fun a b => a < b
  | .ogt => fun a b => b < a
  | .ole => fun a b => a ≤ b
  | .oge => fun a b => b ≤ a
  | .une => fun a b => ¬ a = b

/-- LLVM `fcmp` semantics: on two numbers the predicate tests its relation;
if either operand is NaN an ordered predicate yields false and an unordered
predicate yields true. -/
def evalFCmp (p : FCmpPredicate) : FpVal → FpVal → Bool
  | .num a, .num b => p.rel a b
  | _, _ => !p.isOrdered

/-- The six HLO comparison opcodes handled by `EmitFloatBinaryOp`. -/
inductive CompareOpcode where
  | kEq | kNe | kLt | kGt | kLe | kGe
deriving DecidableEq

/-- The float comparison predicate `EmitFloatBinaryOp` emits for each
comparison opcode: ordered for everything except `kNe`, which is unordered
(`FCMP_OEQ`, `FCMP_UNE`, `FCMP_OLT`, `FCMP_OGT`, `FCMP_OLE`, `FCMP_OGE`). -/
def floatComparePredicate : CompareOpcode → FCmpPredicate
  | .kEq => .oeq
  | .kNe => .une
  | .kLt => .olt
  | .kGt => .ogt
  | .kLe => .ole
  | .kGe => .oge

/-- The value computed by the comparison emitted by `EmitFloatBinaryOp`. -/
def emitFloatCompare (opc : CompareOpcode) (lhs rhs : FpVal) : Bool :=
  evalFCmp (floatComparePredicate opc) lhs rhs

/-- C3: every float comparison opcode except not-equal is emitted as an
ordered comparison and not-equal as an unordered one; consequently
`NaN != NaN` is true while `NaN == NaN`, `NaN < x` and `NaN > x` are false
for every float `x`. -/
theorem float_compare_ordered_except_ne_nan_semantics (x : FpVal) :
    (floatComparePredicate .kEq).isOrdered = true ∧
    (floatComparePredicate .kLt).isOrdered = true ∧
    (floatComparePredicate .kGt).isOrdered = true ∧
    (floatComparePredicate .kLe).isOrdered = true ∧
    (floatComparePredicate .kGe).isOrdered = true ∧
    (floatComparePredicate .kNe).isOrdered = false ∧
    emitFloatCompare .kNe .nan .nan = true ∧
    emitFloatCompare .kEq .nan .nan = false ∧
    emitFloatCompare .kLt .nan x = false ∧
    emitFloatCompare .kGt .nan x = false := by
  refine ⟨rfl, rfl, rfl, rfl, rfl, rfl, rfl, rfl, ?_, ?_⟩ <;>
    cases x <;> rfl

/-! ## `EmitExpm1` -/

/-- Branchless numeric select: the semantics of `CreateSelect`. -/
def selectVal {α : Type} (c : Bool) (ifTrue ifFalse : α) : α :=
  if c then ifTrue else ifFalse

/-- `EmitExpm1` in exact rational arithmetic; the `exp` intrinsic the emitter
calls (`EmitExp`) is an external collaborator and is a parameter.  The
structure follows the source line by line; note that the value the source
names `x_squared` is built with `CreateFAdd(x, x)`. -/
def emitExpm1 (expFn : ℚ → ℚ) (x : ℚ) : ℚ :=
  let one : ℚ := 1
  let half : ℚ := 1/2
  let exp_x := expFn x
  let for_large_x := exp_x - one
  let x_squared := x + x
  let x_squared_over_two := x_squared * half
  let for_small_x := x + x_squared_over_two
  let kExponentIsSmallThreshold : ℚ := 1/100000
  let abs_x := |x|
  selectVal (decide (abs_x < kExponentIsSmallThreshold)) for_small_x for_large_x

/-- C2 (failing input): at `x = 10^-6`, which is below the `1e-5` threshold,
the emitted small-`x` path returns `2 * x`, not the 2-term Taylor expansion
`x + x^2/2` of `exp(x) - 1`; for `x = 1` (above the threshold) the direct
path `exp(x) - 1` is returned, and the choice is the numeric select on
`|x| < 1e-5`. -/
theorem expm1_small_path_computes_two_x (expFn : ℚ → ℚ) :
    emitExpm1 expFn (1/1000000) = 2 * (1/1000000) ∧
    emitExpm1 expFn (1/1000000) ≠ 1/1000000 + (1/1000000)^2 / 2 ∧
    emitExpm1 expFn 1 = expFn 1 - 1 ∧
    emitExpm1 expFn (1/1000000) =
      selectVal (decide (|(1/1000000 : ℚ)| < 1/100000))
        (1/1000000 + (1/1000000 + 1/1000000) * (1/2)) (expFn (1/1000000) - 1) := by
  have hc : |(1/1000000 : ℚ)| < 1/100000 := by
    rw [abs_of_pos] <;> norm_num
  have hc1 : ¬ |(1 : ℚ)| < 1/100000 := by
    rw [abs_of_pos] <;> norm_num
  refine ⟨?_, ?_, ?_, ?_⟩
  · unfold emitExpm1 selectVal
    rw [if_pos (by exact_mod_cast decide_eq_true hc)]
    · norm_num
  · unfold emitExpm1 selectVal
    rw [if_pos (by exact_mod_cast decide_eq_true hc)]
    · norm_num
  · unfold emitExpm1 selectVal
    rw [if_neg (by simpa using hc1)]
  · unfold emitExpm1 selectVal
    norm_num

/-! ## Errors, generators, elementwise source indices -/

/-- Failure taxonomy of the emitter (`Unimplemented`, `InvalidArgument`). -/
inductive EmitError where
  | unimplemented : String → EmitError
  | invalidArgument : String → EmitError
deriving DecidableEq

/-- `ElementwiseSourceIndex`: the coordinate at which an elementwise
instruction reads operand `operand_no`.  A scalar operand is read at the
empty coordinate; an operand of the same shape is read at the target
coordinate; an operand needing implicit broadcast is read with index `0` in
each of its size-1 dimensions.  (The layout-equality refinement on the
pass-through case is not modelled; shapes here are dimension lists.) -/
def elementwiseSourceIndex (targetIndex : List ℤ) (hloDims operandDims : List ℕ) :
    List ℤ :=
  if operandDims = [] then []
  else if operandDims = hloDims then targetIndex
  else (List.zip (List.zip hloDims operandDims) targetIndex).map
    (fun p => if p.1.1 = p.1.2 then p.2 else 0)

/-- `EmitElementalSelect`: evaluate the predicate, true and false operands at
their elementwise source indices; truncate the predicate byte to one bit
(`CreateTrunc(pred_value, getInt1Ty())`) and select.  The predicate operand
is a `PRED` stored in a byte, modelled as a bit pattern `ℕ`; truncation to
`i1` keeps the lowest bit. -/
def emitElementalSelect {α : Type} (hloDims predDims onTrueDims onFalseDims : List ℕ)
    (predGen : List ℤ → Except EmitError ℕ)
    (onTrueGen onFalseGen : List ℤ → Except EmitError α)
    (index : List ℤ) : Except EmitError α := do
  let pred_value ← predGen (elementwiseSourceIndex index hloDims predDims)
  let on_true_value ← onTrueGen (elementwiseSourceIndex index hloDims onTrueDims)
  let on_false_value ← onFalseGen (elementwiseSourceIndex index hloDims onFalseDims)
  pure (if pred_value % 2 = 1 then on_true_value else on_false_value)

/-- C10: the select choice is a function of the predicate byte's lowest bit
only — two predicate bytes with equal lowest bit produce identical results —
and an even nonzero predicate byte such as 2 selects the false-operand
value. -/
theorem select_uses_lowest_predicate_bit {α : Type} (hloDims pd td fd : List ℕ)
    (tGen fGen : List ℤ → Except EmitError α) (index : List ℤ)
    (p₁ p₂ : ℕ) (hp : p₁ % 2 = p₂ % 2) (t f : α) :
    emitElementalSelect hloDims pd td fd (fun _ => .ok p₁) tGen fGen index =
      emitElementalSelect hloDims pd td fd (fun _ => .ok p₂) tGen fGen index ∧
    emitElementalSelect hloDims pd td fd (fun _ => .ok 2)
      (fun _ => .ok t) (fun _ => .ok f) index = .ok f := by
  constructor
  · simp only [emitElementalSelect, bind, Except.bind]
    rw [hp]
  · rfl

/-- Witness for `select_uses_lowest_predicate_bit` at a concrete instance:
predicate bytes 2 and 0 agree on the lowest bit, and predicate byte 2 picks
the false value 7 over the true value 5. -/
theorem select_uses_lowest_predicate_bit_witness :
    (2 : ℕ) % 2 = (0 : ℕ) % 2 ∧
    (emitElementalSelect [2] [2] [2] [2] (fun _ => .ok 2)
        (fun _ => .ok (5 : ℕ)) (fun _ => .ok 7) [0] =
      emitElementalSelect [2] [2] [2] [2] (fun _ => .ok 0)
        (fun _ => .ok (5 : ℕ)) (fun _ => .ok 7) [0] ∧
     emitElementalSelect [2] [2] [2] [2] (fun _ => .ok 2)
        (fun _ => .ok (5 : ℕ)) (fun _ => .ok 7) [0] = .ok 7) :=
  ⟨by decide, select_uses_lowest_predicate_bit [2] [2] [2] [2]
      (fun _ => .ok (5 : ℕ)) (fun _ => .ok 7) [0] 2 0 (by decide) 5 7⟩

/-! ## Philox random number generation (`CalculateSampleValues`,
`MakePhiloxRngElementGenerator`) -/

/-- `llvm_ir::UMulLowHigh32`: low and high 32-bit halves of the 64-bit
product of two 32-bit values. -/
def umulLowHigh32 (a b : ℕ) : ℕ × ℕ :=
  (a * b % 2 ^ 32, a * b / 2 ^ 32 % 2 ^ 32)

/-- `llvm_ir::SplitInt64ToInt32s`: low and high 32-bit halves of a 64-bit
value. -/
def splitInt64ToInt32s (v : ℕ) : ℕ × ℕ :=
  (v % 2 ^ 32, v / 2 ^ 32 % 2 ^ 32)

/-- Philox Weyl increment constant A. -/
def philoxW32A : ℕ := 0x9E3779B9

/-- Philox Weyl increment constant B. -/
def philoxW32B : ℕ := 0xBB67AE85

/-- Philox odd multiplier A. -/
def philoxM4xW32A : ℕ := 0xD2511F53

/-- Philox odd multiplier B. -/
def philoxM4xW32B : ℕ := 0xCD9E8D57

/-- The 4x32 counter and 2x32 key of the Philox algorithm. -/
structure PhiloxState where
  counter0 : ℕ
  counter1 : ℕ
  counter2 : ℕ
  counter3 : ℕ
  key0 : ℕ
  key1 : ℕ

/-- One round of the Philox-4x32 mixing computation, followed by the key
raising step, as in the loop body of `CalculateSampleValues`. -/
def philoxRound (s : PhiloxState) : PhiloxState :=
  let lo0 := (umulLowHigh32 philoxM4xW32A s.counter0).1
  let hi0 := (umulLowHigh32 philoxM4xW32A s.counter0).2
  let lo1 := (umulLowHigh32 philoxM4xW32B s.counter2).1
  let hi1 := (umulLowHigh32 philoxM4xW32B s.counter2).2
  { counter0 := hi1 ^^^ (s.counter1 ^^^ s.key0)
    counter1 := lo1
    counter2 := hi0 ^^^ (s.counter3 ^^^ s.key1)
    counter3 := lo0
    key0 := (s.key0 + philoxW32A) % 2 ^ 32
    key1 := (s.key1 + philoxW32B) % 2 ^ 32 }

/-- `CalculateSampleValues`: seed the 4x32 counter from the sample index and
the xor of the module rng state with the global random number, seed the key
from the per-instruction module random value, and run ten Philox rounds.
`indexBits` is the bit width of the index type (32 or 64). -/
def calculateSampleValues (indexBits sample_idx hlo_random_value
    global_random_number rng_state : ℕ) : ℕ × ℕ × ℕ × ℕ :=
  let (c0, c1) :=
    if indexBits = 32 then (sample_idx, 0)
    else splitInt64ToInt32s sample_idx
  let (c2, c3) := splitInt64ToInt32s (rng_state ^^^ global_random_number)
  let (k0, k1) := splitInt64ToInt32s hlo_random_value
  let s := philoxRound^[10] ⟨c0, c1, c2, c3, k0, k1⟩
  (s.counter0, s.counter1, s.counter2, s.counter3)

/-- Row-major linearization of a multidimensional index
(`IrArray::Index::Linearize`). -/
def linearizeIndex (dims index : List ℕ) : ℕ :=
  (List.zip dims index).foldl (fun acc p => acc * p.1 + p.2) 0

/-- The element generator returned by `MakePhiloxRngElementGenerator`, up to
the raw random value handed to `ConvertValueForDistribution`: linearize the
coordinate, split it into a 128-bit sample index and an intra-sample offset,
run the ten-round Philox computation, and select the offset-th element of
the four 32-bit words (pairs of words read as one little-endian 64-bit value
when there are two elements per sample). -/
def makePhiloxRngElementGenerator (elemsPerSample indexBits hloRandomValue
    globalRandomNumber rngState : ℕ) (dims index : List ℕ) : ℕ :=
  let elem_idx := linearizeIndex dims index
  let sample_idx := elem_idx / elemsPerSample
  let elem_offset := elem_idx % elemsPerSample
  let (w0, w1, w2, w3) := calculateSampleValues indexBits sample_idx
    hloRandomValue globalRandomNumber rngState
  let words := [w0, w1, w2, w3]
  if elemsPerSample = 2 then
    words.getD (2 * elem_offset) 0 + words.getD (2 * elem_offset + 1) 0 * 2 ^ 32
  else
    words.getD elem_offset 0

/-- C7: the Philox element generator is a pure function of the fixed seeds
(module random value, global random number, module rng state) and the
coordinate: two invocations with identical seeds whose coordinates
linearize identically produce identical raw output values. -/
theorem philox_element_generator_deterministic (eps ib hrv grn rs : ℕ)
    (dims i₁ i₂ : List ℕ)
    (h : linearizeIndex dims i₁ = linearizeIndex dims i₂) :
    makePhiloxRngElementGenerator eps ib hrv grn rs dims i₁ =
      makePhiloxRngElementGenerator eps ib hrv grn rs dims i₂ := by
  unfold makePhiloxRngElementGenerator
  rw [h]

/-- Witness for `philox_element_generator_deterministic` at concrete seeds
and a concrete coordinate. -/
theorem philox_element_generator_deterministic_witness :
    linearizeIndex [2, 2] [1, 0] = linearizeIndex [2, 2] [1, 0] ∧
    makePhiloxRngElementGenerator 4 64 1 2 3 [2, 2] [1, 0] =
      makePhiloxRngElementGenerator 4 64 1 2 3 [2, 2] [1, 0] :=
  ⟨rfl, philox_element_generator_deterministic 4 64 1 2 3 [2, 2] [1, 0] [1, 0] rfl⟩

/-! ## Dot contraction (`EmitElementalDot`) -/

/-- The operand coordinate at which `EmitElementalDot` reads the left
operand for loop counter `t`: the first `lhs_rank - 1` entries of the output
coordinate with `t` inserted at the left contracting dimension
(`lhs_index.push_back` loop followed by `InsertAt`). -/
def dotLhsIndex (lhsRank lhsContractingDim : ℕ) (dotResultIndex : List ℕ)
    (t : ℕ) : List ℕ :=
  (dotResultIndex.take (lhsRank - 1)).insertIdx lhsContractingDim t

/-- The operand coordinate at which `EmitElementalDot` reads the right
operand for loop counter `t`: the next `rhs_rank - 1` entries of the output
coordinate with `t` inserted at the right contracting dimension. -/
def dotRhsIndex (lhsRank rhsRank rhsContractingDim : ℕ)
    (dotResultIndex : List ℕ) (t : ℕ) : List ℕ :=
  ((dotResultIndex.drop (lhsRank - 1)).take (rhsRank - 1)).insertIdx
    rhsContractingDim t

/-- `EmitElementalDot` for an integral element type of width `w`: the inner
loop runs `t` from 0 to the contracted dimension's extent, accumulating
`Add(acc, Mul(lhs, rhs))` (both wrapping `w`-bit ops) into an accumulator
initialized to the null value of the element type. -/
def emitElementalDotInt (w : ℕ) (lhsDims rhsDims : List ℕ)
    (lhsContractingDim rhsContractingDim : ℕ) (lhsGen rhsGen : List ℕ → ℕ)
    (dotResultIndex : List ℕ) : ℕ :=
  let contracted_dim_size := lhsDims.getD lhsContractingDim 0
  let lhs_dims := lhsDims.length
  let rhs_dims := rhsDims.length
  (List.range contracted_dim_size).foldl
    (fun accumulator t =>
      (accumulator +
        lhsGen (dotLhsIndex lhs_dims lhsContractingDim dotResultIndex t) *
          rhsGen (dotRhsIndex lhs_dims rhs_dims rhsContractingDim
            dotResultIndex t) % 2 ^ w) % 2 ^ w)
    0

/-- `EmitElementalDot` for a complex element type, in exact rational
arithmetic: the same loop, accumulating the real and imaginary parts
separately (`product_real = lr*rr - li*ri`, `product_imag = lr*ri + li*rr`)
into a zero-initialized pair. -/
def emitElementalDotComplex (lhsDims rhsDims : List ℕ)
    (lhsContractingDim rhsContractingDim : ℕ)
    (lhsGen rhsGen : List ℕ → ℚ × ℚ) (dotResultIndex : List ℕ) : ℚ × ℚ :=
  let contracted_dim_size := lhsDims.getD lhsContractingDim 0
  let lhs_dims := lhsDims.length
  let rhs_dims := rhsDims.length
  (List.range contracted_dim_size).foldl
    (fun accumulator t =>
      let l := lhsGen (dotLhsIndex lhs_dims lhsContractingDim dotResultIndex t)
      let r := rhsGen (dotRhsIndex lhs_dims rhs_dims rhsContractingDim
        dotResultIndex t)
      (accumulator.1 + (l.1 * r.1 - l.2 * r.2),
       accumulator.2 + (l.1 * r.2 + l.2 * r.1)))
    (0, 0)

/-- A left fold of wrapping add-of-product steps from a zero accumulator is
the wrapped sum. -/
theorem dot_foldl_eq_sum_mod (f : ℕ → ℕ) (M : ℕ) (n : ℕ) :
    (List.range n).foldl (fun acc t => (acc + f t % M) % M) 0 =
      (∑ t ∈ Finset.range n, f t) % M := by
  induction n with
  | zero => simp
  | succ n ih =>
    rw [List.range_succ, List.foldl_append, Finset.sum_range_succ]
    simp only [List.foldl_cons, List.foldl_nil, ih]
    rw [Nat.add_mod (∑ t ∈ Finset.range n, f t) (f n)]

/-- A left fold of componentwise accumulate steps from a zero pair is the
pair of componentwise sums. -/
theorem dot_foldl_pair_eq_sums (g h : ℕ → ℚ) (n : ℕ) :
    (List.range n).foldl (fun (acc : ℚ × ℚ) t => (acc.1 + g t, acc.2 + h t))
        (0, 0) =
      (∑ t ∈ Finset.range n, g t, ∑ t ∈ Finset.range n, h t) := by
  induction n with
  | zero => simp
  | succ n ih =>
    rw [List.range_succ, List.foldl_append, Finset.sum_range_succ,
      Finset.sum_range_succ, List.foldl_cons, List.foldl_nil, ih]

/-- C6: the dot emitter computes, at every output coordinate, the sum over
the contracted dimension of products of the lhs and rhs elements (wrapped
`w`-bit arithmetic for integral types; real and imaginary parts accumulated
separately for complex types), starting from a zero accumulator; in
particular for lhs shape `[2,3]` and rhs shape `[3,4]` contracting lhs
dimension 1 with rhs dimension 0, output element `(i, j)` is
`∑ t < 3, lhs[i,t] * rhs[t,j]`. -/
theorem dot_contraction_is_sum_of_products (w : ℕ) (lhsDims rhsDims : List ℕ)
    (lc rc : ℕ) (lhsGen rhsGen : List ℕ → ℕ)
    (clhsGen crhsGen : List ℕ → ℚ × ℚ) (out : List ℕ)
    (A B : ℕ → ℕ → ℕ) (i j : ℕ) :
    emitElementalDotInt w lhsDims rhsDims lc rc lhsGen rhsGen out =
      (∑ t ∈ Finset.range (lhsDims.getD lc 0),
        lhsGen (dotLhsIndex lhsDims.length lc out t) *
          rhsGen (dotRhsIndex lhsDims.length rhsDims.length rc out t)) % 2 ^ w ∧
    emitElementalDotComplex lhsDims rhsDims lc rc clhsGen crhsGen out =
      (∑ t ∈ Finset.range (lhsDims.getD lc 0),
        ((clhsGen (dotLhsIndex lhsDims.length lc out t)).1 *
            (crhsGen (dotRhsIndex lhsDims.length rhsDims.length rc out t)).1 -
          (clhsGen (dotLhsIndex lhsDims.length lc out t)).2 *
            (crhsGen (dotRhsIndex lhsDims.length rhsDims.length rc out t)).2),
       ∑ t ∈ Finset.range (lhsDims.getD lc 0),
        ((clhsGen (dotLhsIndex lhsDims.length lc out t)).1 *
            (crhsGen (dotRhsIndex lhsDims.length rhsDims.length rc out t)).2 +
          (clhsGen (dotLhsIndex lhsDims.length lc out t)).2 *
            (crhsGen (dotRhsIndex lhsDims.length rhsDims.length rc out t)).1)) ∧
    emitElementalDotInt 32 [2, 3] [3, 4] 1 0
        (fun l => A (l.getD 0 0) (l.getD 1 0))
        (fun l => B (l.getD 0 0) (l.getD 1 0)) [i, j] =
      (∑ t ∈ Finset.range 3, A i t * B t j) % 2 ^ 32 := by
  refine ⟨?_, ?_, ?_⟩
  · exact dot_foldl_eq_sum_mod _ (2 ^ w) _
  · exact dot_foldl_pair_eq_sums _ _ _
  · have h := dot_foldl_eq_sum_mod
      (fun t => A ((dotLhsIndex 2 1 [i, j] t).getD 0 0)
          ((dotLhsIndex 2 1 [i, j] t).getD 1 0) *
        B ((dotRhsIndex 2 2 0 [i, j] t).getD 0 0)
          ((dotRhsIndex 2 2 0 [i, j] t).getD 1 0)) (2 ^ 32) 3
    have hidx : ∀ t : ℕ, dotLhsIndex 2 1 [i, j] t = [i, t] ∧
        dotRhsIndex 2 2 0 [i, j] t = [t, j] := by
      intro t
      constructor <;> rfl
    unfold emitElementalDotInt
    simp only [List.getD, List.length_cons, List.length_nil]
    refine Eq.trans ?_ (Eq.trans h ?_)
    · rfl
    · refine congrArg (· % 2 ^ 32) (Finset.sum_congr rfl ?_)
      intro t _
      rw [(hidx t).1, (hidx t).2]
      rfl

/-! ## Pad (`EmitElementalPad`) -/

/-- The per-dimension fields of a `PaddingConfig` used by `EmitElementalPad`
(`edge_padding_high` is not read by the element emitter). -/
structure PadDimensionConfig where
  edge_padding_low : ℤ
  interior_padding : ℤ

/-- One iteration of the `EmitElementalPad` dimension loop: subtract the low
edge padding, test `ICmpSGE(index, 0)`, test
`ICmpEQ(0, URem(index, interior + 1))` (`URem` acts on the unsigned `w`-bit
pattern of the possibly negative index), divide by `SDiv(index, interior+1)`
(truncated signed division), and test `ICmpSLT(index, operand_dim)`.
Returns the transformed index entry and the conjunction of the three
in-bounds tests for this dimension. -/
def padDimStep (w : ℕ) (pad_dim : PadDimensionConfig) (operand_dim idx : ℤ) :
    ℤ × Bool :=
  let idx1 := idx - pad_dim.edge_padding_low
  let c1 := decide (0 ≤ idx1)
  let c2 := decide ((0 : ℤ) = idx1 % (2 ^ w : ℤ) % (pad_dim.interior_padding + 1))
  let idx2 := Int.tdiv idx1 (pad_dim.interior_padding + 1)
  let c3 := decide (idx2 < operand_dim)
  (idx2, c1 && c2 && c3)

/-- The `EmitElementalPad` loop over all dimensions: the transformed operand
coordinate and the accumulated `in_bounds` value. -/
def padLoop (w : ℕ) :
    List PadDimensionConfig → List ℤ → List ℤ → List ℤ × Bool
  | pad_dim :: cfgRest, opd :: dimsRest, idx :: idxRest =>
    let this_dim := padDimStep w pad_dim opd idx
    let rest := padLoop w cfgRest dimsRest idxRest
    (this_dim.1 :: rest.1, this_dim.2 && rest.2)
  | _, _, _ => ([], true)

/-- Runtime semantics of `EmitElementalPad`: if every dimension is in
bounds the element is the source operand read at the transformed coordinate,
otherwise it is the padding-value operand read at the empty coordinate
(`IrArray::Index(index.GetType())`). -/
def emitElementalPad {α : Type} (w : ℕ) (cfg : List PadDimensionConfig)
    (operandDims : List ℤ) (operandGen paddingGen : List ℤ → Except EmitError α)
    (paddedIndex : List ℤ) : Except EmitError α :=
  let looped := padLoop w cfg operandDims paddedIndex
  if looped.2 then operandGen looped.1 else paddingGen []

/-- The in-bounds condition exactly as the claim states it: in every
dimension, `pre = output - edge_low` satisfies `pre ≥ 0`,
`pre mod (interior+1) = 0` and `pre / (interior+1) < operand_extent`.
Structured over the three per-dimension lists. -/
def padInBoundsSpec : List PadDimensionConfig → List ℤ → List ℤ → Prop
  | pad_dim :: cfgRest, opd :: dimsRest, idx :: idxRest =>
    (0 ≤ idx - pad_dim.edge_padding_low ∧
      (idx - pad_dim.edge_padding_low) % (pad_dim.interior_padding + 1) = 0 ∧
      (idx - pad_dim.edge_padding_low) / (pad_dim.interior_padding + 1) < opd) ∧
    padInBoundsSpec cfgRest dimsRest idxRest
  | _, _, _ => True

/-- The operand coordinate the claim specifies:
`pre / (interior + 1)` in every dimension. -/
def padSpecIndex : List PadDimensionConfig → List ℤ → List ℤ
  | pad_dim :: cfgRest, idx :: idxRest =>
    (idx - pad_dim.edge_padding_low) / (pad_dim.interior_padding + 1) ::
      padSpecIndex cfgRest idxRest
  | _, _ => []

/-- Side conditions for the pad theorem: the three lists have one entry per
dimension; interior padding is nonnegative (guaranteed by shape validation);
and `output - edge_low` fits in the `w`-bit index type. -/
def padHyps (w : ℕ) :
    List PadDimensionConfig → List ℤ → List ℤ → Prop
  | pad_dim :: cfgRest, _opd :: dimsRest, idx :: idxRest =>
    0 ≤ pad_dim.interior_padding ∧
    idx - pad_dim.edge_padding_low < 2 ^ w ∧
    padHyps w cfgRest dimsRest idxRest
  | [], [], [] => True
  | _, _, _ => False

/-- One dimension of the pad loop agrees with the claim: the in-bounds bit
holds exactly under the claimed three conditions, and when the index is
nonnegative the transformed entry is the claimed quotient. -/
theorem padDimStep_correct (w : ℕ) (pd : PadDimensionConfig) (opd idx : ℤ)
    (hint : 0 ≤ pd.interior_padding)
    (hb : idx - pd.edge_padding_low < 2 ^ w) :
    ((padDimStep w pd opd idx).2 = true ↔
      (0 ≤ idx - pd.edge_padding_low ∧
        (idx - pd.edge_padding_low) % (pd.interior_padding + 1) = 0 ∧
        (idx - pd.edge_padding_low) / (pd.interior_padding + 1) < opd)) ∧
    (0 ≤ idx - pd.edge_padding_low →
      (padDimStep w pd opd idx).1 =
        (idx - pd.edge_padding_low) / (pd.interior_padding + 1)) := by
  have hdivpos : (0 : ℤ) ≤ pd.interior_padding + 1 := by omega
  constructor
  · simp only [padDimStep, Bool.and_eq_true, decide_eq_true_eq]
    constructor
    · rintro ⟨⟨h1, h2⟩, h3⟩
      have hmod : (idx - pd.edge_padding_low) % (2 ^ w : ℤ) =
          idx - pd.edge_padding_low := Int.emod_eq_of_lt h1 hb
      rw [hmod] at h2
      refine ⟨h1, h2.symm, ?_⟩
      rwa [Int.tdiv_eq_ediv h1 hdivpos] at h3
    · rintro ⟨h1, h2, h3⟩
      have hmod : (idx - pd.edge_padding_low) % (2 ^ w : ℤ) =
          idx - pd.edge_padding_low := Int.emod_eq_of_lt h1 hb
      refine ⟨⟨h1, ?_⟩, ?_⟩
      · rw [hmod, h2]
      · rwa [Int.tdiv_eq_ediv h1 hdivpos]
  · intro h1
    simp only [padDimStep]
    exact Int.tdiv_eq_ediv h1 hdivpos

/-- The pad loop agrees with the claim in every dimension. -/
theorem padLoop_correct (w : ℕ) :
    ∀ (cfg : List PadDimensionConfig) (dims out : List ℤ),
    padHyps w cfg dims out →
    ((padLoop w cfg dims out).2 = true ↔ padInBoundsSpec cfg dims out) ∧
    ((padLoop w cfg dims out).2 = true →
      (padLoop w cfg dims out).1 = padSpecIndex cfg out)
  | [], [], [] => by
    intro _
    exact ⟨by simp [padLoop, padInBoundsSpec], fun _ => rfl⟩
  | [], [], _ :: _ => by intro h; exact absurd h not_false
  | [], _ :: _, _ => by intro h; exact absurd h not_false
  | _ :: _, [], _ => by intro h; exact absurd h not_false
  | _ :: _, _ :: _, [] => by intro h; exact absurd h not_false
  | pd :: cfgRest, opd :: dimsRest, idx :: idxRest => by
    rintro ⟨hint, hb, hrest⟩
    obtain ⟨ihiff, ihidx⟩ := padLoop_correct w cfgRest dimsRest idxRest hrest
    obtain ⟨stepiff, stepidx⟩ := padDimStep_correct w pd opd idx hint hb
    constructor
    · simp only [padLoop, Bool.and_eq_true, padInBoundsSpec]
      rw [stepiff, ihiff]
    · intro hall
      simp only [padLoop, Bool.and_eq_true] at hall
      obtain ⟨hstep, hrest2⟩ := hall
      have h1 : 0 ≤ idx - pd.edge_padding_low := ((stepiff.mp hstep).1)
      simp only [padLoop, padSpecIndex]
      rw [stepidx h1, ihidx hrest2]

/-- C5: an output element of Pad is the operand value at coordinate
`pre/(interior+1)` (per dimension, `pre = output - edge_low`) exactly when
every dimension satisfies `pre ≥ 0`, `pre mod (interior+1) = 0` and
`pre/(interior+1) < operand_extent`; if any dimension fails, the element is
the padding-value operand invoked at the empty coordinate. -/
theorem pad_element_is_operand_or_padding {α : Type} (w : ℕ)
    (cfg : List PadDimensionConfig) (dims out : List ℤ)
    (operandGen paddingGen : List ℤ → Except EmitError α)
    (hh : padHyps w cfg dims out) :
    (padInBoundsSpec cfg dims out →
      emitElementalPad w cfg dims operandGen paddingGen out =
        operandGen (padSpecIndex cfg out)) ∧
    (¬ padInBoundsSpec cfg dims out →
      emitElementalPad w cfg dims operandGen paddingGen out = paddingGen []) := by
  obtain ⟨hiff, hidx⟩ := padLoop_correct w cfg dims out hh
  constructor
  · intro hspec
    have htrue : (padLoop w cfg dims out).2 = true := hiff.mpr hspec
    simp only [emitElementalPad]
    rw [htrue, if_pos rfl, hidx htrue]
  · intro hspec
    have hfalse : (padLoop w cfg dims out).2 = false := by
      cases hb : (padLoop w cfg dims out).2
      · rfl
      · exact absurd (hiff.mp hb) hspec
    simp only [emitElementalPad]
    rw [hfalse]
    simp

/-- Witness for `pad_element_is_operand_or_padding`: padding the shape `[3]`
input `[7, 8, 9]` with low edge 1 and interior 0, output coordinate 2 is the
in-bounds path reading input coordinate 1 (value 8), and output coordinate 4
is the padding path (value 0). -/
theorem pad_element_is_operand_or_padding_witness :
    (padHyps 64 [⟨1, 0⟩] [3] [2] ∧ padInBoundsSpec [⟨1, 0⟩] [3] [2] ∧
      emitElementalPad 64 [⟨1, 0⟩] [3]
        (fun l => Except.ok (7 + l.getD 0 0)) (fun _ => Except.ok (0 : ℤ)) [2] =
          Except.ok 8) ∧
    (padHyps 64 [⟨1, 0⟩] [3] [4] ∧ ¬ padInBoundsSpec [⟨1, 0⟩] [3] [4] ∧
      emitElementalPad 64 [⟨1, 0⟩] [3]
        (fun l => Except.ok (7 + l.getD 0 0)) (fun _ => Except.ok (0 : ℤ)) [4] =
          Except.ok 0) := by
  have hh2 : padHyps 64 [⟨1, 0⟩] [3] [2] := ⟨by norm_num, by norm_num, trivial⟩
  have hs2 : padInBoundsSpec [⟨1, 0⟩] [3] [2] :=
    ⟨⟨by norm_num, by norm_num, by norm_num⟩, trivial⟩
  have hh4 : padHyps 64 [⟨1, 0⟩] [3] [4] := ⟨by norm_num, by norm_num, trivial⟩
  have hs4 : ¬ padInBoundsSpec [⟨1, 0⟩] [3] [4] := by
    rintro ⟨⟨-, -, hlt⟩, -⟩
    norm_num at hlt
  refine ⟨⟨hh2, hs2, ?_⟩, ⟨hh4, hs4, ?_⟩⟩
  · rw [(pad_element_is_operand_or_padding 64 [⟨1, 0⟩] [3] [2]
      (fun l => Except.ok (7 + l.getD 0 0)) (fun _ => Except.ok (0 : ℤ)) hh2).1 hs2]
    norm_num
    rfl
  · rw [(pad_element_is_operand_or_padding 64 [⟨1, 0⟩] [3] [4]
      (fun l => Except.ok (7 + l.getD 0 0)) (fun _ => Except.ok (0 : ℤ)) hh4).2 hs4]

/-! ## Float unary/binary dispatch and unimplemented paths
(`EmitFloatUnaryOp`, `EmitFloatBinaryOp`, `EmitErfInv`, `EmitAtan2`,
`EmitTanh`, `MakeElementGenerator`) -/

/-- Floating-point primitive element types. -/
inductive PrimType where
  | F16 | BF16 | F32 | F64
deriving DecidableEq

/-- Truncation of a rational toward zero, the rounding used by `frem`. -/
def ratTrunc (q : ℚ) : ℤ := Int.tdiv q.num q.den

/-- `CreateFAdd` on exact float values (NaN-propagating). -/
def FpVal.add : FpVal → FpVal → FpVal
  | .num a, .num b => .num (a + b)
  | _, _ => .nan

/-- `CreateFSub` on exact float values. -/
def FpVal.sub : FpVal → FpVal → FpVal
  | .num a, .num b => .num (a - b)
  | _, _ => .nan

/-- `CreateFMul` on exact float values. -/
def FpVal.mul : FpVal → FpVal → FpVal
  | .num a, .num b => .num (a * b)
  | _, _ => .nan

/-- `CreateFDiv` on exact float values (division by zero leaves the rational
model and is mapped to the non-number). -/
def FpVal.div : FpVal → FpVal → FpVal
  | .num a, .num b => if b = 0 then .nan else .num (a / b)
  | _, _ => .nan

/-- `CreateFRem` on exact float values: `a - b * trunc(a / b)`. -/
def FpVal.frem : FpVal → FpVal → FpVal
  | .num a, .num b => if b = 0 then .nan else .num (a - b * (ratTrunc (a / b) : ℚ))
  | _, _ => .nan

/-- The intrinsic and helper functions the emitter delegates to
(`llvm::Intrinsic::exp/log/sin/cos/sqrt/pow`, `llvm_ir::EmitFloatMax`,
`llvm_ir::EmitFloatMin`); they are collaborators outside this core and enter
the model as parameters. -/
structure IntrinsicEnv where
  expFn : ℚ → ℚ
  logFn : ℚ → ℚ
  sinFn : ℚ → ℚ
  cosFn : ℚ → ℚ
  sqrtFn : ℚ → ℚ
  powFn : ℚ → ℚ → ℚ
  maxFn : FpVal → FpVal → FpVal
  minFn : FpVal → FpVal → FpVal

/-- A float intrinsic applied to a float value: NaN in, NaN out. -/
def liftIntrinsic (f : ℚ → ℚ) : FpVal → FpVal
  | .num q => .num (f q)
  | .nan => .nan

/-- A two-argument float intrinsic applied to float values. -/
def liftIntrinsic2 (f : ℚ → ℚ → ℚ) : FpVal → FpVal → FpVal
  | .num a, .num b => .num (f a b)
  | _, _ => .nan

/-- `EmitLog1p` in exact rational arithmetic, mirroring the source: the
direct formula `log(x + 1)` for large `|x|`, the 2-term Taylor expansion
`x * (1 + (-1/2) * x)` below the `1e-4` threshold, joined by a numeric
select on `|x| < 1e-4`. -/
def emitLog1p (logFn : ℚ → ℚ) (x : ℚ) : ℚ :=
  let one : ℚ := 1
  let negative_half : ℚ := -(1/2)
  let for_large_x := logFn (x + one)
  let for_small_x := (negative_half * x + one) * x
  let kAntilogarithmIsSmallThreshold : ℚ := 1/10000
  let abs_x := |x|
  selectVal (decide (abs_x < kAntilogarithmIsSmallThreshold)) for_small_x for_large_x

/-- `EmitExpm1` lifted to float values. -/
def fpExpm1 (env : IntrinsicEnv) : FpVal → FpVal
  | .num q => .num (emitExpm1 env.expFn q)
  | .nan => .nan

/-- `EmitLog1p` lifted to float values. -/
def fpLog1p (env : IntrinsicEnv) : FpVal → FpVal
  | .num q => .num (emitLog1p env.logFn q)
  | .nan => .nan

/-- `EmitAtan2`: unconditionally unimplemented. -/
def emitAtan2 (_prim_type : PrimType) (_lhs _rhs : FpVal) :
    Except EmitError FpVal :=
  .error (.unimplemented "atan2")

/-- `EmitTanh`: unconditionally unimplemented. -/
def emitTanh (_prim_type : PrimType) (_value : FpVal) :
    Except EmitError FpVal :=
  .error (.unimplemented "tanh")

/-- `EmitErfInv`: Giles' polynomial approximation of the inverse error
function, implemented only for F32; any other element type reports
unimplemented.  The coefficient tables and the `w < 5` branch structure
follow the source; `log` and `sqrt` are intrinsics from the environment. -/
def emitErfInv (env : IntrinsicEnv) (prim_type : PrimType) (x : ℚ) :
    Except EmitError ℚ :=
  if prim_type ≠ .F32 then
    .error (.unimplemented "Inverse erf is only implemented for element type F32.")
  else
    let multiply_add : List ℚ → ℚ → ℚ := fun coefficients w =>
      match coefficients with
      | [] => 0
      | c :: rest => rest.foldl (fun p coefficient => p * w + coefficient) c
    let w : ℚ := - env.logFn ((1 - x) * (1 + x))
    let lq : List ℚ :=
      [2.81022636e-08, 3.43273939e-07, -3.5233877e-06,
       -4.39150654e-06, 0.00021858087, -0.00125372503,
       -0.00417768164, 0.246640727, 1.50140941]
    let gq : List ℚ :=
      [-0.000200214257, 0.000100950558, 0.00134934322,
       -0.00367342844, 0.00573950773, -0.0076224613,
       0.00943887047, 1.00167406, 2.83297682]
    let p := if w < 5 then multiply_add lq (w - 2.5)
             else multiply_add gq (env.sqrtFn w - 3)
    .ok (p * x)

/-- The HLO opcodes of the modelled floating-point subsystem: the unary and
binary float labels of the `MakeElementGenerator` dispatch switch (the
integer- and complex-only labels are outside the modelled subsystem), plus
three real HLO opcodes (`kMap`, `kSort`, `kTuple`) that are **not** in the
dispatch table and therefore fall to its default case. -/
inductive HloOpcode where
  | kExp | kExpm1 | kLog | kLog1p | kCos | kSin | kTanh
  | kAdd | kSubtract | kMultiply | kDivide | kRemainder
  | kEq | kNe | kLt | kGt | kLe | kGe
  | kMaximum | kMinimum | kPower | kAtan2
  | kMap | kSort | kTuple
deriving DecidableEq

/-- `EmitFloatUnaryOp`, restricted to the modelled opcodes; every other
opcode reaching it reports the unimplemented unary op failure, as the
source's default case does. -/
def emitFloatUnaryOp (env : IntrinsicEnv) (prim_type : PrimType)
    (opcode : HloOpcode) (operand_value : FpVal) : Except EmitError FpVal :=
  match opcode with
  | .kExp => .ok (liftIntrinsic env.expFn operand_value)
  | .kExpm1 => .ok (fpExpm1 env operand_value)
  | .kLog => .ok (liftIntrinsic env.logFn operand_value)
  | .kLog1p => .ok (fpLog1p env operand_value)
  | .kCos => .ok (liftIntrinsic env.cosFn operand_value)
  | .kSin => .ok (liftIntrinsic env.sinFn operand_value)
  | .kTanh => emitTanh prim_type operand_value
  | _ => .error (.unimplemented "unary floating point op")

/-- A scalar value flowing between generators: a float, or an `i1`
comparison result. -/
inductive Value where
  | float : FpVal → Value
  | pred : Bool → Value
deriving DecidableEq

/-- `EmitFloatBinaryOp`: exact float arithmetic for add/sub/mul/div/rem,
ordered comparisons for everything except `kNe` (unordered), NaN-aware
min/max and `pow` via collaborators, and unconditionally unimplemented
`atan2`; every other opcode reaching it reports the unimplemented binary op
failure. -/
def emitFloatBinaryOp (env : IntrinsicEnv) (prim_type : PrimType)
    (opcode : HloOpcode) (lhs_value rhs_value : FpVal) :
    Except EmitError Value :=
  match opcode with
  | .kAdd => .ok (.float (FpVal.add lhs_value rhs_value))
  | .kSubtract => .ok (.float (FpVal.sub lhs_value rhs_value))
  | .kMultiply => .ok (.float (FpVal.mul lhs_value rhs_value))
  | .kDivide => .ok (.float (FpVal.div lhs_value rhs_value))
  | .kRemainder => .ok (.float (FpVal.frem lhs_value rhs_value))
  | .kEq => .ok (.pred (emitFloatCompare .kEq lhs_value rhs_value))
  | .kNe => .ok (.pred (emitFloatCompare .kNe lhs_value rhs_value))
  | .kLt => .ok (.pred (emitFloatCompare .kLt lhs_value rhs_value))
  | .kGt => .ok (.pred (emitFloatCompare .kGt lhs_value rhs_value))
  | .kLe => .ok (.pred (emitFloatCompare .kLe lhs_value rhs_value))
  | .kGe => .ok (.pred (emitFloatCompare .kGe lhs_value rhs_value))
  | .kMaximum => .ok (.float (env.maxFn lhs_value rhs_value))
  | .kMinimum => .ok (.float (env.minFn lhs_value rhs_value))
  | .kPower => .ok (.float (liftIntrinsic2 env.powFn lhs_value rhs_value))
  | .kAtan2 => do
      let v ← emitAtan2 prim_type lhs_value rhs_value
      pure (.float v)
  | _ => .error (.unimplemented "binary floating point op")

/-- An instruction of the modelled float subsystem: opcode, element type,
output dimensions and operand dimensions. -/
structure HloInstr where
  opcode : HloOpcode
  elementType : PrimType
  dims : List ℕ
  operandDims : List (List ℕ)

/-- The generator invoked when an operand generator is missing from the
map; the real map lookup cannot fail for a well-formed graph. -/
def missingOperandGenerator : List ℤ → Except EmitError Value :=
  fun _ => .error (.invalidArgument "missing operand generator")

/-- `MakeElementGenerator`, restricted to the float subsystem: unary labels
dispatch to `EmitFloatUnaryOp` on the operand value, binary labels dispatch
to `EmitFloatBinaryOp` on the two operand values, and every opcode not in
the table returns a generator that unconditionally reports the unhandled
opcode failure when invoked.  The result is always a total generator
function: dispatch itself never fails. -/
def makeElementGenerator (env : IntrinsicEnv) (hlo : HloInstr)
    (operandGens : List (List ℤ → Except EmitError Value)) :
    List ℤ → Except EmitError Value :=
  match hlo.opcode with
  | .kExp | .kExpm1 | .kLog | .kLog1p | .kCos | .kSin | .kTanh =>
    fun index => do
      let operand_value ← (operandGens.getD 0 missingOperandGenerator)
        (elementwiseSourceIndex index hlo.dims (hlo.operandDims.getD 0 []))
      match operand_value with
      | .float v => do
          let r ← emitFloatUnaryOp env hlo.elementType hlo.opcode v
          pure (.float r)
      | _ => .error (.invalidArgument "expected a floating point operand value")
  | .kAdd | .kSubtract | .kMultiply | .kDivide | .kRemainder
  | .kEq | .kNe | .kLt | .kGt | .kLe | .kGe
  | .kMaximum | .kMinimum | .kPower | .kAtan2 =>
    fun index => do
      let lhs_value ← (operandGens.getD 0 missingOperandGenerator)
        (elementwiseSourceIndex index hlo.dims (hlo.operandDims.getD 0 []))
      let rhs_value ← (operandGens.getD 1 missingOperandGenerator)
        (elementwiseSourceIndex index hlo.dims (hlo.operandDims.getD 1 []))
      match lhs_value, rhs_value with
      | .float a, .float b => emitFloatBinaryOp env hlo.elementType hlo.opcode a b
      | _, _ => .error (.invalidArgument "expected floating point operand values")
  | .kMap | .kSort | .kTuple =>
    fun _index =>
      .error (.unimplemented "Unhandled opcode for elemental IR emission")

/-- C8: every unsupported combination fails with a reported Unimplemented
error at the moment the generator is invoked, and never produces a value:
`atan2` and `tanh` (directly and through the dispatched generator), `erfinv`
for every non-F32 float type, and the generators for opcodes absent from
the dispatch table (`kMap`, `kSort`, `kTuple`), which are total functions
that error only upon invocation. -/
theorem unsupported_ops_report_unimplemented_lazily (env : IntrinsicEnv)
    (prim : PrimType) (a b v : FpVal) (x : ℚ) (et : PrimType)
    (dims : List ℕ) (odims : List (List ℕ))
    (gens : List (List ℤ → Except EmitError Value)) (index : List ℤ) :
    emitAtan2 prim a b = .error (.unimplemented "atan2") ∧
    emitTanh prim v = .error (.unimplemented "tanh") ∧
    emitErfInv env .F16 x =
      .error (.unimplemented "Inverse erf is only implemented for element type F32.") ∧
    emitErfInv env .BF16 x =
      .error (.unimplemented "Inverse erf is only implemented for element type F32.") ∧
    emitErfInv env .F64 x =
      .error (.unimplemented "Inverse erf is only implemented for element type F32.") ∧
    makeElementGenerator env ⟨.kMap, et, dims, odims⟩ gens index =
      .error (.unimplemented "Unhandled opcode for elemental IR emission") ∧
    makeElementGenerator env ⟨.kSort, et, dims, odims⟩ gens index =
      .error (.unimplemented "Unhandled opcode for elemental IR emission") ∧
    makeElementGenerator env ⟨.kTuple, et, dims, odims⟩ gens index =
      .error (.unimplemented "Unhandled opcode for elemental IR emission") ∧
    makeElementGenerator env ⟨.kAtan2, et, dims, odims⟩
        [fun _ => .ok (.float a), fun _ => .ok (.float b)] index =
      .error (.unimplemented "atan2") ∧
    makeElementGenerator env ⟨.kTanh, et, dims, odims⟩
        [fun _ => .ok (.float v)] index =
      .error (.unimplemented "tanh") := by
  refine ⟨rfl, rfl, rfl, rfl, rfl, rfl, rfl, rfl, rfl, rfl⟩

/-! ## ReducePrecision (`EmitReducePrecisionFloat`) -/

/-- The f32 sign bit mask, `1u << 31`. -/
def f32SignBitMask : ℕ := 1 <<< 31

/-- The f32 exponent field mask, `0xffu << 23`. -/
def f32ExpBitsMask : ℕ := 0xff <<< 23

/-- Mantissa rounding step of `EmitReducePrecisionFloat` (the
`mantissa_bits < 23` block): add the round-to-nearest-even bias
(`base + last retained mantissa bit`), then mask off the truncated mantissa
bits, in 32-bit integer arithmetic.  `~(last_mantissa_bit_mask - 1)` as a
`uint32` is `2^32 - last_mantissa_bit_mask`. -/
def reduceMantissa (mantissa_bits : ℕ) (x : ℕ) : ℕ :=
  if mantissa_bits < 23 then
    let last_mantissa_bit_mask : ℕ := 1 <<< (23 - mantissa_bits)
    let base_rounding_bias : ℕ := (last_mantissa_bit_mask >>> 1) - 1
    let x_last_mantissa_bit : ℕ :=
      (x &&& last_mantissa_bit_mask) >>> (23 - mantissa_bits)
    let x_rounding_bias := x_last_mantissa_bit + base_rounding_bias
    let truncation_mask : ℕ := 2 ^ 32 - last_mantissa_bit_mask
    (x + x_rounding_bias) % 2 ^ 32 &&& truncation_mask
  else x

/-- Exponent saturation step of `EmitReducePrecisionFloat` (the
`exponent_bits < 8` block): compare the exponent field against the reduced
format's saturating bounds and force to signed infinity on overflow, then to
signed zero on underflow. -/
def reduceExponent (exponent_bits : ℕ) (x : ℕ) : ℕ :=
  if exponent_bits < 8 then
    let f32_exponent_bias : ℕ := (1 <<< 7) - 1
    let reduced_exponent_bias : ℕ := (1 <<< (exponent_bits - 1)) - 1
    let reduced_max_exponent : ℕ := f32_exponent_bias + reduced_exponent_bias
    let reduced_min_exponent : ℕ := f32_exponent_bias - reduced_exponent_bias
    let x_exponent := x &&& f32ExpBitsMask
    let x_overflows := decide (reduced_max_exponent <<< 23 < x_exponent)
    let x_underflows := decide (x_exponent ≤ reduced_min_exponent <<< 23)
    let x_signed_zero := x &&& f32SignBitMask
    let x_signed_inf := x_signed_zero ||| f32ExpBitsMask
    let x1 := if x_overflows then x_signed_inf else x
    if x_underflows then x_signed_zero else x1
  else x

/-- Whether a 32-bit pattern encodes an IEEE single-precision NaN: the
semantics of the source's `FCmpUNO(x, x)` test on the original operand. -/
def isNaN32 (x : ℕ) : Prop :=
  x &&& f32ExpBitsMask = f32ExpBitsMask ∧ x &&& (2 ^ 23 - 1) ≠ 0

instance (x : ℕ) : Decidable (isNaN32 x) :=
  inferInstanceAs (Decidable (_ ∧ _))

/-- `EmitReducePrecisionFloat` on a 32-bit pattern: mantissa rounding, then
exponent saturation, then the NaN correction (a NaN input passes through
unchanged, or becomes positive infinity when no mantissa bits remain).  The
fast-math `noNaNs` mode is off, as in default compilation, so the NaN
correction is emitted. -/
def emitReducePrecisionFloat (exponent_bits mantissa_bits : ℕ) (x : ℕ) : ℕ :=
  let result := reduceExponent exponent_bits (reduceMantissa mantissa_bits x)
  if isNaN32 x then
    (if 0 < mantissa_bits then x else f32ExpBitsMask)
  else result

/-- Bitwise AND with a contiguous window mask `(2^w - 1) * 2^b` extracts the
`w`-bit field starting at bit `b`. -/
theorem and_mask_window (x w b : ℕ) :
    x &&& (2 ^ w - 1) * 2 ^ b = x / 2 ^ b % 2 ^ w * 2 ^ b := by
  have h1 : (2 ^ w - 1) * 2 ^ b = (2 ^ w - 1) <<< b := (Nat.shiftLeft_eq _ _).symm
  have h2 : x / 2 ^ b % 2 ^ w * 2 ^ b = (x >>> b % 2 ^ w) <<< b := by
    rw [Nat.shiftLeft_eq, Nat.shiftRight_eq_div_pow]
  rw [h1, h2]
  apply Nat.eq_of_testBit_eq
  intro i
  rw [Nat.testBit_and, Nat.testBit_shiftLeft, Nat.testBit_shiftLeft,
    Nat.testBit_mod_two_pow, Nat.testBit_shiftRight,
    Nat.testBit_two_pow_sub_one]
  rcases Nat.lt_or_ge i b with hib | hib
  · have : decide (i ≥ b) = false := by
      simp
      omega
    rw [this]
    simp
  · have hd : decide (i ≥ b) = true := by simpa using hib
    have hieq : b + (i - b) = i := by omega
    rw [hd, hieq]
    cases x.testBit i <;> cases hdec : decide (i - b < w) <;> simp

/-- AND with a low mask `2^n - 1` is reduction modulo `2^n`. -/
theorem and_low_mask (x n : ℕ) : x &&& (2 ^ n - 1) = x % 2 ^ n := by
  have h := and_mask_window x n 0
  simp only [pow_zero, mul_one, Nat.div_one] at h
  exact h

/-- AND with a single bit `2^b` extracts that bit in place. -/
theorem and_single_bit (x b : ℕ) : x &&& 2 ^ b = x / 2 ^ b % 2 * 2 ^ b := by
  have h := and_mask_window x 1 b
  simpa using h

/-- AND with the high mask `2^32 - 2^b` clears the low `b` bits of a 32-bit
pattern. -/
theorem and_high_mask (x b : ℕ) (hb : b ≤ 32) (hx : x < 2 ^ 32) :
    x &&& (2 ^ 32 - 2 ^ b) = x / 2 ^ b * 2 ^ b := by
  have hsplit : (2 ^ 32 : ℕ) - 2 ^ b = (2 ^ (32 - b) - 1) * 2 ^ b := by
    rw [Nat.sub_one_mul, ← Nat.pow_add, Nat.sub_add_cancel hb]
  rw [hsplit, and_mask_window]
  congr 1
  apply Nat.mod_eq_of_lt
  rw [Nat.div_lt_iff_lt_mul (Nat.pos_pow_of_pos b (by norm_num)),
    ← Nat.pow_add, Nat.sub_add_cancel hb]
  exact hx

/-- The exponent-field mask in window form. -/
theorem f32ExpBitsMask_eq : f32ExpBitsMask = (2 ^ 8 - 1) * 2 ^ 23 := by
  decide

/-- The sign-bit mask as a power of two. -/
theorem f32SignBitMask_eq : f32SignBitMask = 2 ^ 31 := by
  decide

/-- Arithmetic characterization of the mantissa rounding step. -/
theorem reduceMantissa_eq (m x : ℕ) (hm : m < 23) :
    reduceMantissa m x =
      (x + (x / 2 ^ (23 - m) % 2 + (2 ^ (22 - m) - 1))) % 2 ^ 32 /
        2 ^ (23 - m) * 2 ^ (23 - m) := by
  unfold reduceMantissa
  rw [if_pos hm]
  have hb1 : (1 : ℕ) <<< (23 - m) = 2 ^ (23 - m) := by
    rw [Nat.shiftLeft_eq, one_mul]
  have hbase : (2 ^ (23 - m) : ℕ) >>> 1 - 1 = 2 ^ (22 - m) - 1 := by
    rw [Nat.shiftRight_eq_div_pow, pow_one]
    congr 1
    have h23 : 23 - m = (22 - m) + 1 := by omega
    rw [h23, pow_succ, Nat.mul_div_cancel _ (by norm_num)]
  have hlast : (x &&& 2 ^ (23 - m)) >>> (23 - m) = x / 2 ^ (23 - m) % 2 := by
    rw [and_single_bit, Nat.shiftRight_eq_div_pow,
      Nat.mul_div_cancel _ (Nat.pos_pow_of_pos _ (by norm_num))]
  have htrunc : (x + (x / 2 ^ (23 - m) % 2 + (2 ^ (22 - m) - 1))) % 2 ^ 32 &&&
      (2 ^ 32 - 2 ^ (23 - m)) =
      (x + (x / 2 ^ (23 - m) % 2 + (2 ^ (22 - m) - 1))) % 2 ^ 32 /
        2 ^ (23 - m) * 2 ^ (23 - m) :=
    and_high_mask _ _ (by omega) (Nat.mod_lt _ (by norm_num))
  simp only [hb1, hbase, hlast]
  exact htrunc

/-- The mantissa rounding step produces a pattern whose truncated low bits
are zero. -/
theorem reduceMantissa_mod (m x : ℕ) (hm : m < 23) :
    reduceMantissa m x % 2 ^ (23 - m) = 0 := by
  rw [reduceMantissa_eq m x hm]
  exact Nat.mul_mod_left _ _

/-- The mantissa rounding step stays inside 32 bits. -/
theorem reduceMantissa_lt (m x : ℕ) (hx : x < 2 ^ 32) :
    reduceMantissa m x < 2 ^ 32 := by
  by_cases hm : m < 23
  · rw [reduceMantissa_eq m x hm]
    calc (x + (x / 2 ^ (23 - m) % 2 + (2 ^ (22 - m) - 1))) % 2 ^ 32 /
        2 ^ (23 - m) * 2 ^ (23 - m)
        ≤ (x + (x / 2 ^ (23 - m) % 2 + (2 ^ (22 - m) - 1))) % 2 ^ 32 :=
          Nat.div_mul_le_self _ _
      _ < 2 ^ 32 := Nat.mod_lt _ (by norm_num)
  · unfold reduceMantissa
    rw [if_neg hm]
    exact hx

/-- A 32-bit pattern whose truncated low bits are already zero is a fixed
point of the mantissa rounding step. -/
theorem reduceMantissa_fixed (m x : ℕ) (hm : m < 23) (hx : x < 2 ^ 32)
    (hmod : x % 2 ^ (23 - m) = 0) : reduceMantissa m x = x := by
  rw [reduceMantissa_eq m x hm]
  have hbpos : 0 < 2 ^ (23 - m) := Nat.pos_pow_of_pos _ (by norm_num)
  have hbias : x / 2 ^ (23 - m) % 2 + (2 ^ (22 - m) - 1) < 2 ^ (23 - m) := by
    have h1 : x / 2 ^ (23 - m) % 2 ≤ 1 := Nat.le_of_lt_succ (Nat.mod_lt _ (by norm_num))
    have h2 : (2 : ℕ) ^ (23 - m) = 2 ^ (22 - m) * 2 := by
      rw [← pow_succ]
      congr 1
      omega
    have h3 : (0 : ℕ) < 2 ^ (22 - m) := Nat.pos_pow_of_pos _ (by norm_num)
    omega
  have hxle : x ≤ 2 ^ 32 - 2 ^ (23 - m) := by
    obtain ⟨j, hj⟩ := Nat.dvd_of_mod_eq_zero hmod
    obtain ⟨k, hk⟩ :=
      (pow_dvd_pow 2 (show 23 - m ≤ 32 by omega) : (2 : ℕ) ^ (23 - m) ∣ 2 ^ 32)
    have hk1 : 1 ≤ k := by
      by_contra hk0
      push_neg at hk0
      interval_cases k
      simp at hk
    have hjk : j < k := by
      by_contra hge
      push_neg at hge
      have hmul : 2 ^ (23 - m) * k ≤ 2 ^ (23 - m) * j :=
        Nat.mul_le_mul_left _ hge
      omega
    have hbound : x ≤ 2 ^ (23 - m) * (k - 1) := by
      rw [hj]
      exact Nat.mul_le_mul_left _ (by omega)
    have hstep : 2 ^ (23 - m) * (k - 1) + 2 ^ (23 - m) = 2 ^ (23 - m) * k := by
      rw [← Nat.mul_succ]
      congr 1
      omega
    omega
  have hcle : (2 : ℕ) ^ (23 - m) ≤ 2 ^ 32 :=
    Nat.pow_le_pow_right (by norm_num) (by omega)
  have hsum_lt : x + (x / 2 ^ (23 - m) % 2 + (2 ^ (22 - m) - 1)) < 2 ^ 32 := by
    omega
  rw [Nat.mod_eq_of_lt hsum_lt]
  obtain ⟨j, hj⟩ := Nat.dvd_of_mod_eq_zero hmod
  subst hj
  rw [mul_comm, Nat.mul_add_div hbpos, Nat.div_eq_of_lt hbias]
  ring

/-- Arithmetic characterization of the exponent saturation step for a
reduced exponent width below 8: underflow forces the signed zero, otherwise
overflow forces the signed infinity, otherwise the value passes through. -/
theorem reduceExponent_eq (e x : ℕ) (he8 : e < 8) :
    reduceExponent e x =
      if x / 2 ^ 23 % 2 ^ 8 ≤ 127 - (2 ^ (e - 1) - 1) then
        x / 2 ^ 31 % 2 * 2 ^ 31
      else if 127 + (2 ^ (e - 1) - 1) < x / 2 ^ 23 % 2 ^ 8 then
        x / 2 ^ 31 % 2 * 2 ^ 31 + 255 * 2 ^ 23
      else x := by
  have hor : x / 2 ^ 31 % 2 * 2 ^ 31 ||| (2 ^ 8 - 1) * 2 ^ 23 =
      x / 2 ^ 31 % 2 * 2 ^ 31 + 255 * 2 ^ 23 := by
    have hs : x / 2 ^ 31 % 2 = 0 ∨ x / 2 ^ 31 % 2 = 1 := by omega
    have h0 : (0 * 2 ^ 31 : ℕ) ||| (2 ^ 8 - 1) * 2 ^ 23 =
        0 * 2 ^ 31 + 255 * 2 ^ 23 := by decide
    have h1 : (1 * 2 ^ 31 : ℕ) ||| (2 ^ 8 - 1) * 2 ^ 23 =
        1 * 2 ^ 31 + 255 * 2 ^ 23 := by decide
    rcases hs with h | h <;> rw [h]
    · exact h0
    · exact h1
  unfold reduceExponent
  rw [if_pos he8]
  simp only [f32ExpBitsMask_eq, f32SignBitMask_eq, and_mask_window,
    and_single_bit, Nat.shiftLeft_eq, one_mul, hor, decide_eq_true_eq]
  split_ifs <;> omega

/-- The exponent saturation step stays inside 32 bits. -/
theorem reduceExponent_lt (e x : ℕ) (hx : x < 2 ^ 32) :
    reduceExponent e x < 2 ^ 32 := by
  by_cases he8 : e < 8
  · rw [reduceExponent_eq e x he8]
    have hs : x / 2 ^ 31 % 2 ≤ 1 := by omega
    split_ifs <;> omega
  · unfold reduceExponent
    rw [if_neg he8]
    exact hx

/-- The exponent saturation step preserves zero low mantissa bits. -/
theorem reduceExponent_mod (e x b : ℕ) (hb : b ≤ 23) (hmod : x % 2 ^ b = 0) :
    reduceExponent e x % 2 ^ b = 0 := by
  have hz : ∀ y : ℕ, 2 ^ b ∣ y → y % 2 ^ b = 0 := by
    rintro y ⟨k, rfl⟩
    exact Nat.mul_mod_right _ _
  by_cases he8 : e < 8
  · rw [reduceExponent_eq e x he8]
    have h31 : (2 : ℕ) ^ b ∣ 2 ^ 31 := pow_dvd_pow 2 (by omega)
    have h23 : (2 : ℕ) ^ b ∣ 2 ^ 23 := pow_dvd_pow 2 hb
    split_ifs
    · exact hz _ (h31.mul_left _)
    · exact hz _ (dvd_add (h31.mul_left _) (h23.mul_left _))
    · exact hmod
  · unfold reduceExponent
    rw [if_neg he8]
    exact hmod

/-- The NaN test in field-arithmetic form. -/
theorem isNaN32_iff (x : ℕ) :
    isNaN32 x ↔ x / 2 ^ 23 % 2 ^ 8 = 255 ∧ x % 2 ^ 23 ≠ 0 := by
  unfold isNaN32
  rw [f32ExpBitsMask_eq, and_mask_window, and_low_mask]
  constructor
  · rintro ⟨h1, h2⟩
    exact ⟨by omega, h2⟩
  · rintro ⟨h1, h2⟩
    refine ⟨by omega, h2⟩

/-- C4: ReducePrecision is idempotent on every finite 32-bit pattern for
every valid bit-count pair: applying the mantissa rounding and exponent
saturation twice gives the same bit pattern as applying it once. -/
theorem reduce_precision_idempotent (e m x : ℕ) (he : 1 ≤ e)
    (hx : x < 2 ^ 32)
    (hfin : ¬ x &&& f32ExpBitsMask = f32ExpBitsMask) :
    emitReducePrecisionFloat e m (emitReducePrecisionFloat e m x) =
      emitReducePrecisionFloat e m x := by
  have hnotnanx : ¬ isNaN32 x := fun hn => hfin hn.1
  have h1 : emitReducePrecisionFloat e m x =
      reduceExponent e (reduceMantissa m x) := by
    simp only [emitReducePrecisionFloat]
    rw [if_neg hnotnanx]
  rw [h1]
  have hm_lt : reduceMantissa m x < 2 ^ 32 := reduceMantissa_lt m x hx
  have hr_lt : reduceExponent e (reduceMantissa m x) < 2 ^ 32 :=
    reduceExponent_lt e _ hm_lt
  have hr_mod : ∀ hm23 : m < 23,
      reduceExponent e (reduceMantissa m x) % 2 ^ (23 - m) = 0 := fun hm23 =>
    reduceExponent_mod e _ (23 - m) (by omega) (reduceMantissa_mod m x hm23)
  have hstepA : reduceMantissa m (reduceExponent e (reduceMantissa m x)) =
      reduceExponent e (reduceMantissa m x) := by
    by_cases hm23 : m < 23
    · exact reduceMantissa_fixed m _ hm23 hr_lt (hr_mod hm23)
    · unfold reduceMantissa
      rw [if_neg hm23]
  by_cases hnr : isNaN32 (reduceExponent e (reduceMantissa m x))
  · rcases Nat.eq_zero_or_pos m with hm0 | hmpos
    · exfalso
      subst hm0
      have hne : reduceExponent e (reduceMantissa 0 x) % 2 ^ 23 ≠ 0 :=
        ((isNaN32_iff _).mp hnr).2
      have hzero := hr_mod (by norm_num)
      simp only [Nat.sub_zero] at hzero
      exact hne hzero
    · simp only [emitReducePrecisionFloat]
      rw [if_pos hnr, if_pos hmpos]
  · simp only [emitReducePrecisionFloat]
    rw [if_neg hnr, hstepA]
    by_cases he8 : e < 8
    · have hub : ∀ s : ℕ, s ≤ 1 →
          reduceExponent e (s * 2 ^ 31) = s * 2 ^ 31 := by
        intro s hs
        rw [reduceExponent_eq e _ he8]
        have hrb : (2 : ℕ) ^ (e - 1) ≤ 2 ^ 7 :=
          Nat.pow_le_pow_right (by norm_num) (by omega)
        split_ifs <;> omega
      have hinf : ∀ s : ℕ, s ≤ 1 →
          reduceExponent e (s * 2 ^ 31 + 255 * 2 ^ 23) =
            s * 2 ^ 31 + 255 * 2 ^ 23 := by
        intro s hs
        rw [reduceExponent_eq e _ he8]
        have hrb : (2 : ℕ) ^ (e - 1) ≤ 2 ^ 7 :=
          Nat.pow_le_pow_right (by norm_num) (by omega)
        split_ifs <;> omega
      have hchar := reduceExponent_eq e (reduceMantissa m x) he8
      by_cases hc1 : reduceMantissa m x / 2 ^ 23 % 2 ^ 8 ≤
          127 - (2 ^ (e - 1) - 1)
      · have hrval : reduceExponent e (reduceMantissa m x) =
            reduceMantissa m x / 2 ^ 31 % 2 * 2 ^ 31 := by
          rw [hchar, if_pos hc1]
        rw [hrval]
        exact hub _ (by omega)
      · by_cases hc2 : 127 + (2 ^ (e - 1) - 1) <
            reduceMantissa m x / 2 ^ 23 % 2 ^ 8
        · have hrval : reduceExponent e (reduceMantissa m x) =
              reduceMantissa m x / 2 ^ 31 % 2 * 2 ^ 31 + 255 * 2 ^ 23 := by
            rw [hchar, if_neg hc1, if_pos hc2]
          rw [hrval]
          exact hinf _ (by omega)
        · have hrval : reduceExponent e (reduceMantissa m x) =
              reduceMantissa m x := by
            rw [hchar, if_neg hc1, if_neg hc2]
          rw [hrval, reduceExponent_eq e _ he8, if_neg hc1, if_neg hc2]
    · unfold reduceExponent
      rw [if_neg he8]

/-- Witness for `reduce_precision_idempotent` at the IEEE-half parameters
`(exponent_bits, mantissa_bits) = (5, 10)` and the finite pattern
`0x40490FDB` (the bits of the float closest to pi). -/
theorem reduce_precision_idempotent_witness :
    (1 ≤ 5 ∧ (0x40490FDB : ℕ) < 2 ^ 32 ∧
      ¬ (0x40490FDB : ℕ) &&& f32ExpBitsMask = f32ExpBitsMask) ∧
    emitReducePrecisionFloat 5 10 (emitReducePrecisionFloat 5 10 0x40490FDB) =
      emitReducePrecisionFloat 5 10 0x40490FDB :=
  ⟨⟨by norm_num, by norm_num, by decide⟩,
   reduce_precision_idempotent 5 10 0x40490FDB (by norm_num) (by norm_num)
     (by decide)⟩
